import Mathlib

/-!
Verification of the qlf_fasm FASM/bitstream codec.

This file gives a shallow embedding of the core algorithms of the
`qlf_fasm` package (files `qlf_fasm/bitstream.py`, `qlf_fasm/qlf_fasm.py`,
`qlf_fasm/database.py` and `qlf_fasm_db_builder.py`) and proves properties
of the embedded definitions.

Modelling conventions:
 - Python `int` is modelled by `Nat` (all the integers involved are
   non-negative; every masked/modular step is made explicit).
 - Python `str` is modelled by `List Char`; a dotted feature name is
   modelled by the list of its dot-separated components (the Python code
   always manipulates the result of `feature.split(".")`).
 - Python `bytearray` is modelled by `List Nat`.
 - Python `dict` (which preserves insertion order) is modelled by an
   association list, with `alookup` / `odSet` mirroring membership test
   and item assignment.
-/

set_option maxHeartbeats 1000000

/-- Python `str` values are modelled as lists of characters. -/
abbrev PyStr := List Char

/-- Association-list lookup, modelling the Python `dict` operations
`key in d` and `d[key]` / `d.get(key)`. -/
def alookup {α β : Type} [DecidableEq α] : List (α × β) → α → Option β
  | [], _ => none
  | (k, v) :: t, a => if k = a then some v else alookup t a

/-- Association-list assignment `d[key] = value` for an insertion-ordered
Python `dict`: an existing key keeps its position, a new key is appended
at the end. -/
def odSet {α β : Type} [DecidableEq α] : List (α × β) → α → β → List (α × β)
  | [], k, v => [(k, v)]
  | (k', v') :: t, k, v => if k' = k then (k, v) :: t else (k', v') :: odSet t k v

namespace FourByteBitstream

/-- Embedding of `FourByteBitstream.checksum` (bitstream.py, lines 334-360).
Returns the pair (complement word, accumulator word). -/
def checksum (words : List Nat) (init : Nat) : Nat × Nat :=
  let c := words.foldl
    (fun c w =>
      let hi := w >>> 16
      let lo := w &&& 0xFFFF
      let c0 := (c.1 + lo) &&& 0xFFFF
      let c1 := (c0 + c.2) &&& 0xFFFF
      let c0 := (c0 + hi) &&& 0xFFFF
      let c1 := (c0 + c1) &&& 0xFFFF
      (c0, c1))
    (init &&& 0xFFFF, init >>> 16)
  let cb0 := 0x10000 - ((c.1 + c.2) &&& 0xFFFF)
  let cb1 := 0x10000 - ((c.1 + cb0) &&& 0xFFFF)
  ((cb1 <<< 16) ||| cb0, (c.2 <<< 16) ||| c.1)

/-- The checksum complement word exactly as the specification words it:
`c0`/`c1` start at zero, each word updates `c0` then `c1` then `c0` then
`c1` (the `c1` updates using the already-updated `c0`), all modulo `2^16`,
and the result is `cb0` with `cb1 <<< 16` OR'd onto it. -/
def checksumComplementSpec (words : List Nat) : Nat :=
  let c := words.foldl
    (fun c w =>
      let c0 := (c.1 + (w &&& 0xFFFF)) % 2 ^ 16
      let c1 := (c0 + c.2) % 2 ^ 16
      let c0 := (c0 + (w >>> 16)) % 2 ^ 16
      let c1 := (c0 + c1) % 2 ^ 16
      (c0, c1))
    (0, 0)
  let cb0 := 0x10000 - ((c.1 + c.2) % 2 ^ 16)
  ((0x10000 - ((c.1 + cb0) % 2 ^ 16)) <<< 16) ||| cb0

theorem and_ffff_eq_mod (x : Nat) : x &&& 0xFFFF = x % 2 ^ 16 := by
  have h := Nat.and_pow_two_sub_one_eq_mod x 16
  norm_num at h
  norm_num
  exact h

end FourByteBitstream

/-- C1: with `init = 0`, the first component returned by
`FourByteBitstream.checksum` is exactly the complement word described by
the specification: the Fletcher-style accumulator update (two `c1` steps
using the already-updated `c0`) followed by the
`cb0 = 0x10000 - ((c0 + c1) mod 2^16)`,
`cb1 = 0x10000 - ((c0 + cb0) mod 2^16)` transformation, returned as
`(cb1 <<< 16) ||| cb0`. -/
theorem FourByteBitstream.checksum_complement_spec (words : List Nat)
    (h : ∀ w ∈ words, w < 2 ^ 32) :
    (FourByteBitstream.checksum words 0).1 =
      FourByteBitstream.checksumComplementSpec words := by
  unfold FourByteBitstream.checksum FourByteBitstream.checksumComplementSpec
  have hfun : (fun (c : Nat × Nat) (w : Nat) =>
      let hi := w >>> 16
      let lo := w &&& 0xFFFF
      let c0 := (c.1 + lo) &&& 0xFFFF
      let c1 := (c0 + c.2) &&& 0xFFFF
      let c0 := (c0 + hi) &&& 0xFFFF
      let c1 := (c0 + c1) &&& 0xFFFF
      (c0, c1)) =
      (fun (c : Nat × Nat) (w : Nat) =>
      let c0 := (c.1 + (w &&& 0xFFFF)) % 2 ^ 16
      let c1 := (c0 + c.2) % 2 ^ 16
      let c0 := (c0 + (w >>> 16)) % 2 ^ 16
      let c1 := (c0 + c1) % 2 ^ 16
      (c0, c1)) := by
    funext c w
    simp only [FourByteBitstream.and_ffff_eq_mod]
  have hinit : ((0 : Nat) &&& 0xFFFF, (0 : Nat) >>> 16) = ((0 : Nat), (0 : Nat)) := by
    decide
  rw [hfun, hinit]
  simp only [FourByteBitstream.and_ffff_eq_mod]

/-- Witness for C1 at a concrete two-word stream. -/
theorem FourByteBitstream.checksum_complement_spec_witness :
    (∀ w ∈ [5, 0xFFFF0003], w < 2 ^ 32) ∧
      (FourByteBitstream.checksum [5, 0xFFFF0003] 0).1 =
        FourByteBitstream.checksumComplementSpec [5, 0xFFFF0003] :=
  ⟨by decide, FourByteBitstream.checksum_complement_spec [5, 0xFFFF0003] (by decide)⟩

/-- Number of hexadecimal digits of `n` (fuel-driven division by 16). -/
def hexDigitCount : Nat → Nat → Nat
  | 0, _ => 0
  | fuel + 1, n => if n = 0 then 0 else hexDigitCount fuel (n / 16) + 1

/-- Number of characters produced by Python `"{:08X}".format(w)` in
`FourByteBitstream.to_file`: at least eight, more when the word needs
more than eight hexadecimal digits. -/
def formattedHexLength (w : Nat) : Nat :=
  max 8 (max 1 (hexDigitCount (w + 1) w))

/-- C10 fails on the code: for the single zero word the complement halves
are both `0x10000 > 0xFFFF`, the complement word is
`0x100010000 ≥ 2^32`, and `to_file` renders it with nine hexadecimal
digits instead of eight (which `from_file`'s eight-digit assertion then
rejects). -/
theorem FourByteBitstream.checksum_complement_overflows :
    (FourByteBitstream.checksum [0] 0).1 = 0x100010000 ∧
      ¬ (FourByteBitstream.checksum [0] 0).1 < 2 ^ 32 ∧
      formattedHexLength (FourByteBitstream.checksum [0] 0).1 = 9 := by
  decide

/-- A configuration region of the device (database.py): a contiguous slice
`[offset, offset+length)` of the flat bit array. Region ids are the list
positions (the claims assume ids `0..R-1`). -/
structure Region where
  offset : Nat
  length : Nat
  deriving DecidableEq, Repr

/-- Python `max(region["length"] for region in database.regions.values())`. -/
def maxRegionLength (regions : List Region) : Nat :=
  regions.foldl (fun m r => max m r.length) 0

namespace FourByteBitstream

/-- Embedding of `FourByteBitstream.compute_checksums` (bitstream.py,
lines 362-408). `bit_planes` is the 32-element plane list; `regions` is
the device's region list indexed by region id. -/
def compute_checksums (bit_planes : List (List Bool)) (regions : List Region) :
    Nat × Nat :=
  let total_length := bit_planes.foldl (fun m p => max m p.length) 0
  let head_words := ((List.range total_length).map (fun i =>
    (List.range bit_planes.length).foldl (fun word b =>
      if (bit_planes.getD b []).getD i false then word ||| (1 <<< b) else word)
      0)).reverse
  let head_crc := (checksum head_words 0).1
  let pad_length := fun b => total_length - (regions.getD b ⟨0, 0⟩).length
  let tail_words := ((List.range total_length).map (fun i =>
    (List.range regions.length).foldl (fun word b =>
      if pad_length b ≤ i ∧ (bit_planes.getD b []).getD (i - pad_length b) false
      then word ||| (1 <<< b) else word)
      0)).reverse
  let crc_words := tail_words.drop 1 ++ [0]
  let tail_crc := (checksum crc_words 0).1
  (head_crc, tail_crc)

/-- The specification's low-padded plane for the tail checksum: plane `b`'s
data sits at positions `[lmax - length_b, lmax)`. -/
def tailPaddedPlaneSpec (bit_planes : List (List Bool)) (regions : List Region)
    (lmax b j : Nat) : Bool :=
  let pad := lmax - (regions.getD b ⟨0, 0⟩).length
  decide (pad ≤ j) && (bit_planes.getD b []).getD (j - pad) false

/-- The specification's tail word stream: words assembled from the
low-padded planes (word `i` has bit `b` set iff padded plane `b` is 1 at
position `i`), reversed, first word dropped, one zero word appended. -/
def tailWordStreamSpec (bit_planes : List (List Bool)) (regions : List Region)
    (lmax : Nat) : List Nat :=
  let words := (List.range lmax).map (fun i =>
    (List.range regions.length).foldl (fun word b =>
      if tailPaddedPlaneSpec bit_planes regions lmax b i
      then word ||| (1 <<< b) else word)
      0)
  words.reverse.drop 1 ++ [0]

theorem foldl_max_length_const {α : Type} (len : α → Nat) (L : Nat) :
    ∀ (l : List α) (a : Nat), (∀ p ∈ l, len p = L) → l ≠ [] →
      l.foldl (fun m p => max m (len p)) a = max a L := by
  intro l
  induction l with
  | nil => intro a _ hne; exact absurd rfl hne
  | cons p rest ih =>
    intro a hall _
    by_cases hrest : rest = []
    · subst hrest
      simp [List.foldl, hall p (by simp)]
    · have hLp : len p = L := hall p (by simp)
      have := ih (max a L) (fun q hq => hall q (by simp [hq])) hrest
      simp only [List.foldl_cons, hLp, this]
      simp [Nat.max_assoc]

end FourByteBitstream

/-- C2: under the claim's assumptions (32 planes, each plane of length
`Lmax = max region length`, region ids `0..R-1` with `R ≤ 32`), the second
component of `compute_checksums` is the checksum of the word stream built
from the low-padded planes, reversed, with its first word dropped and one
zero word appended. -/
theorem FourByteBitstream.compute_checksums_tail_spec
    (bit_planes : List (List Bool)) (regions : List Region)
    (h32 : bit_planes.length = 32)
    (hlen : ∀ p ∈ bit_planes, p.length = maxRegionLength regions)
    (hreg : regions.length ≤ 32) :
    (FourByteBitstream.compute_checksums bit_planes regions).2 =
      (FourByteBitstream.checksum
        (FourByteBitstream.tailWordStreamSpec bit_planes regions
          (maxRegionLength regions)) 0).1 := by
  have hne : bit_planes ≠ [] := by
    intro hnil
    rw [hnil] at h32
    simp at h32
  have hLmax : bit_planes.foldl (fun m p => max m p.length) 0 =
      maxRegionLength regions := by
    have := FourByteBitstream.foldl_max_length_const List.length
      (maxRegionLength regions) bit_planes 0 hlen hne
    simpa using this
  unfold FourByteBitstream.compute_checksums FourByteBitstream.tailWordStreamSpec
  simp only [hLmax]
  congr 2
  simp only [FourByteBitstream.tailPaddedPlaneSpec, Bool.and_eq_true,
    decide_eq_true_eq]

/-- Witness for C2 on a concrete two-region device with 32 planes. -/
theorem FourByteBitstream.compute_checksums_tail_spec_witness :
    ((List.replicate 32 [true, false]).length = 32 ∧
      (∀ p ∈ List.replicate 32 [true, false],
        p.length = maxRegionLength [⟨0, 2⟩, ⟨2, 1⟩]) ∧
      ([(⟨0, 2⟩ : Region), ⟨2, 1⟩].length ≤ 32)) ∧
    (FourByteBitstream.compute_checksums
        (List.replicate 32 [true, false]) [⟨0, 2⟩, ⟨2, 1⟩]).2 =
      (FourByteBitstream.checksum
        (FourByteBitstream.tailWordStreamSpec
          (List.replicate 32 [true, false]) [⟨0, 2⟩, ⟨2, 1⟩]
          (maxRegionLength [⟨0, 2⟩, ⟨2, 1⟩])) 0).1 :=
  ⟨⟨by decide, by decide, by decide⟩,
    FourByteBitstream.compute_checksums_tail_spec
      (List.replicate 32 [true, false]) [⟨0, 2⟩, ⟨2, 1⟩]
      (by decide) (by decide) (by decide)⟩

/-- Embedding of `fasm.SetFasmFeature` as used by qlf_fasm.py. The Python
`value_format` field is omitted: `canonical_features` always emits `None`
for it. The Python `end` field is spelled `«end»`. -/
structure SetFasmFeature where
  feature : String
  start : Option Nat
  «end» : Option Nat
  value : Nat
  deriving DecidableEq, Repr

/-- Embedding of `canonical_features` (qlf_fasm.py, lines 27-87), with the
generator's yields collected into a list. Python `range(start, end + 1)`
is `List.range' start (end + 1 - start)`. -/
def canonical_features (sf : SetFasmFeature) : List SetFasmFeature :=
  match sf.start with
  | none => [⟨sf.feature, none, none, sf.value⟩]
  | some st =>
    match sf.«end» with
    | none =>
      if st = 0 then [⟨sf.feature, none, none, sf.value⟩]
      else [⟨sf.feature, some st, none, sf.value⟩]
    | some en =>
      (List.range' st (en + 1 - st)).map (fun address =>
        let value := (sf.value >>> (address - st)) &&& 1
        if address = 0 then ⟨sf.feature, none, none, value⟩
        else ⟨sf.feature, some address, none, value⟩)

/-- C4: a ranged record with `end > start` splits into `end - start + 1`
single-bit records, position `k` carrying bit `(value >>> (k - start)) &&& 1`
with no `end` and `start = k` (unindexed when `k = 0`); and a record with
`start = 0` and no `end` becomes a single unindexed record with the
original value. -/
theorem canonical_features_splits (sf : SetFasmFeature) :
    (∀ st en, sf.start = some st → sf.«end» = some en → st < en →
      ((canonical_features sf).length = en - st + 1 ∧
        ∀ k, st ≤ k → k ≤ en →
          (canonical_features sf).getD (k - st) ⟨"", none, none, 0⟩ =
            if k = 0 then ⟨sf.feature, none, none, (sf.value >>> (k - st)) &&& 1⟩
            else ⟨sf.feature, some k, none, (sf.value >>> (k - st)) &&& 1⟩)) ∧
    (sf.start = some 0 → sf.«end» = none →
      canonical_features sf = [⟨sf.feature, none, none, sf.value⟩]) := by
  constructor
  · intro st en hs he hlt
    constructor
    · simp only [canonical_features, hs, he, List.length_map, List.length_range']
      omega
    · intro k hks hke
      simp only [canonical_features, hs, he]
      have hk : k - st < ((List.range' st (en + 1 - st)).map (fun address =>
          let value := (sf.value >>> (address - st)) &&& 1
          if address = 0 then (⟨sf.feature, none, none, value⟩ : SetFasmFeature)
          else ⟨sf.feature, some address, none, value⟩)).length := by
        simp only [List.length_map, List.length_range']
        omega
      rw [List.getD_eq_getElem _ _ hk]
      have hk' : k - st < en + 1 - st := by omega
      simp only [List.getElem_map, List.getElem_range']
      have hkk : st + 1 * (k - st) = k := by omega
      simp only [hkk]
  · intro hs he
    simp [canonical_features, hs, he]

/-- Witness for C4 at the record `f[3:1] = 6` and the record `g[0] = 5`. -/
theorem canonical_features_splits_witness :
    (canonical_features ⟨"f", some 1, some 3, 6⟩).length = 3 - 1 + 1 ∧
    ((canonical_features ⟨"f", some 1, some 3, 6⟩).getD (2 - 1) ⟨"", none, none, 0⟩ =
      if (2 : Nat) = 0 then ⟨"f", none, none, (6 >>> (2 - 1)) &&& 1⟩
      else ⟨"f", some 2, none, (6 >>> (2 - 1)) &&& 1⟩) ∧
    canonical_features ⟨"g", some 0, none, 5⟩ = [⟨"g", none, none, 5⟩] :=
  ⟨((canonical_features_splits ⟨"f", some 1, some 3, 6⟩).1 1 3 rfl rfl (by decide)).1,
   ((canonical_features_splits ⟨"f", some 1, some 3, 6⟩).1 1 3 rfl rfl (by decide)).2
      2 (by decide) (by decide),
   (canonical_features_splits ⟨"g", some 0, none, 5⟩).2 rfl rfl⟩

/-- Embedding of `Bit` (database.py, lines 13-49): a segbit with an index
and a value. -/
structure Bit where
  idx : Nat
  val : Bool
  deriving DecidableEq, Repr

/-- The Python constant `INVERSION_PREFIX = "NOT_"` (qlf_fasm.py, line 23). -/
def inversionMarker : PyStr := ['N', 'O', 'T', '_']

/-- Embedding of the inversion handling of `process_fasm_line`
(qlf_fasm.py, lines 233-239): `base_name` is the dot-split feature name;
when its last component starts with `NOT_` that marker is stripped and
the write is flagged as inverted. -/
def stripInversion (base_name : List PyStr) : List PyStr × Bool :=
  let last := base_name.getLastD []
  if inversionMarker.isPrefixOf last then
    (base_name.dropLast ++ [last.drop inversionMarker.length], true)
  else
    (base_name, false)

/-- The name-resolution and bit-value computation slice of
`process_fasm_line` (qlf_fasm.py, lines 233-270) for a canonical record
with value 1: strip the inversion marker, drop the two leading components
(`fpga_top` and the block tag), look the remaining local path up in the
block's segbits, and compute the written `(address, value)` pairs with
`address = bit.idx + offset` and `value = bit.val xor inverted`. The
segbit lookup (with its index tie-break) is abstracted as `segbits`. -/
def resolveWrites (segbits : List PyStr → Option (List Bit))
    (parts : List PyStr) (offset : Nat) : Option (List (Nat × Bool)) :=
  let si := stripInversion parts
  match segbits (si.1.drop 2) with
  | none => none
  | some bits => some (bits.map (fun bit => (bit.idx + offset, xor bit.val si.2)))

/-- Forming the `NOT_`-prefixed variant of a feature name: the marker is
prepended to the last dotted component. -/
def addNotToLast (parts : List PyStr) : List PyStr :=
  parts.dropLast ++ [inversionMarker ++ parts.getLastD []]

/-- Segbits environment for the C5 counterexample: only the local path
`X` resolves. -/
def invSegbitsCex : List PyStr → Option (List Bit) :=
  fun base => if base = [['X']] then some [⟨0, true⟩] else none

/-- The C5 counterexample record: its last dotted component is `NOT_X`,
so it already carries the inversion marker. -/
def invPartsCex : List PyStr :=
  [['a'], ['b'], ['N', 'O', 'T', '_', 'X']]

/-- C5 as stated is false: the record `a.b.NOT_X` resolves (to the
pattern of `X`, written inverted), but its `NOT_`-prefixed variant
`a.b.NOT_NOT_X` strips a single marker, looks up `NOT_X`, fails to
resolve, and in particular does not write the complement `[(0, true)]`. -/
theorem resolveWrites_not_involutive_cex :
    resolveWrites invSegbitsCex invPartsCex 0 = some [(0, false)] ∧
    resolveWrites invSegbitsCex (addNotToLast invPartsCex) 0 = none ∧
    resolveWrites invSegbitsCex (addNotToLast invPartsCex) 0 ≠ some [(0, true)] := by
  decide

/-- C5 amended: for a record whose last dotted component does not already
begin with `NOT_`, the `NOT_`-prefixed variant resolves to the identical
pattern and writes the complemented value at every address of the
footprint. -/
theorem resolveWrites_not_complements (segbits : List PyStr → Option (List Bit))
    (parts : List PyStr) (offset : Nat) (writes : List (Nat × Bool))
    (hne : parts ≠ [])
    (hnp : inversionMarker.isPrefixOf (parts.getLastD []) = false)
    (hres : resolveWrites segbits parts offset = some writes) :
    resolveWrites segbits (addNotToLast parts) offset =
      some (writes.map (fun av => (av.1, !av.2))) := by
  obtain ⟨L, b, rfl⟩ : ∃ L b, parts = L ++ [b] := by
    obtain ⟨L, b, h⟩ := (List.eq_nil_or_concat parts).resolve_left hne
    exact ⟨L, b, by simpa [List.concat_eq_append] using h⟩
  have hstrip : stripInversion (L ++ [b]) = (L ++ [b], false) := by
    unfold stripInversion
    simp only [List.getLastD_concat] at hnp ⊢
    rw [hnp]
    simp
  have hstrip2 : stripInversion (addNotToLast (L ++ [b])) = (L ++ [b], true) := by
    unfold stripInversion addNotToLast
    simp only [List.getLastD_concat, List.dropLast_concat]
    have hpre : inversionMarker.isPrefixOf (inversionMarker ++ b) = true := by
      rw [List.isPrefixOf_iff_prefix]
      exact List.prefix_append _ _
    rw [hpre]
    simp [List.drop_left]
  unfold resolveWrites at hres ⊢
  rw [hstrip] at hres
  rw [hstrip2]
  simp only at hres ⊢
  cases hsb : segbits ((L ++ [b]).drop 2) with
  | none => rw [hsb] at hres; exact absurd hres (by simp)
  | some bits =>
    rw [hsb] at hres
    simp only [Option.some.injEq] at hres
    subst hres
    simp [List.map_map, Function.comp]

/-- Witness for the amended C5 at a concrete record and segbits table. -/
def invSegbitsWit : List PyStr → Option (List Bit) :=
  fun base => if base = [['X']] then some [⟨2, true⟩, ⟨3, false⟩] else none

theorem resolveWrites_not_complements_witness :
    (([['t'], ['u'], ['X']] : List PyStr) ≠ []) ∧
    inversionMarker.isPrefixOf (([['t'], ['u'], ['X']] : List PyStr).getLastD []) = false ∧
    resolveWrites invSegbitsWit [['t'], ['u'], ['X']] 5 = some [(7, true), (8, false)] ∧
    resolveWrites invSegbitsWit (addNotToLast [['t'], ['u'], ['X']]) 5 =
      some [(7, false), (8, true)] :=
  ⟨by decide, by decide, by decide,
    resolveWrites_not_complements invSegbitsWit [['t'], ['u'], ['X']] 5
      [(7, true), (8, false)] (by decide) (by decide) (by decide)⟩

/-- The typed errors of `QlfFasmAssembler` (qlf_fasm.py, lines 110-120). -/
inductive AsmError where
  | lookup
  | featureConflict
  deriving DecidableEq, Repr

/-- One canonical single-bit record, as processed by the per-feature loop
body of `process_fasm_line`: the dot-split full feature name, the
optional `start` index and the value. -/
structure OneFeature where
  parts : List PyStr
  start : Option Nat
  value : Nat
  deriving DecidableEq, Repr

/-- The mutable state of `QlfFasmAssembler` (qlf_fasm.py, lines 122-133):
the working bit array, the `(feature, sub-index) -> (value, line)` map
and the `address -> set of lines` map. Line strings are modelled by
numeric identifiers. -/
structure AsmState where
  bitstream : List Nat
  features : List ((List PyStr × Nat) × (Nat × Nat))
  features_by_bits : List (Nat × List Nat)
  deriving DecidableEq, Repr

/-- Embedding of `QlfFasmAssembler.__init__`: an optional seed (default)
bitstream, or a zero array of `database.bitstream_size` bits; both
tracking maps start empty. -/
def QlfFasmAssembler_init (bitstream_size : Nat) (bitstream : Option (List Nat)) :
    AsmState :=
  match bitstream with
  | none => ⟨List.replicate bitstream_size 0, [], []⟩
  | some bs => ⟨bs, [], []⟩

/-- Embedding of the bit-write loop of `process_fasm_line` (qlf_fasm.py,
lines 267-293): for each segbit, compute the absolute address and the
(possibly inverted) value; raise `FeatureConflict` only when the address
was already written with a different value, otherwise store the value
and record the contributing line. -/
def write_bits (lineId offset : Nat) (is_inverted : Bool) :
    AsmState → List Bit → Except AsmError AsmState
  | st, [] => .ok st
  | st, bit :: rest =>
    let address := bit.idx + offset
    let value : Nat := if xor bit.val is_inverted then 1 else 0
    match alookup st.features_by_bits address with
    | some lines =>
      if value ≠ st.bitstream.getD address 0 then .error .featureConflict
      else
        write_bits lineId offset is_inverted
          { st with bitstream := st.bitstream.set address value,
                    features_by_bits :=
                      odSet st.features_by_bits address (lineId :: lines) }
          rest
    | none =>
      write_bits lineId offset is_inverted
        { st with bitstream := st.bitstream.set address value,
                  features_by_bits := odSet st.features_by_bits address [lineId] }
        rest

/-- Embedding of the value-0 skip, inversion stripping, segbit lookup with
its unindexed-first tie-break, and bit writing of `process_fasm_line`
(qlf_fasm.py, lines 228-293). `segbits` is the matched block's grouped
segbits table. -/
def process_resolved (segbits : List (List PyStr × List (Option Nat × List Bit)))
    (offset lineId : Nat) (st : AsmState) (f : OneFeature)
    (one_feature_idx : Nat) : Except AsmError AsmState :=
  if f.value = 0 then .ok st
  else
    let si := stripInversion f.parts
    let base_name := si.1.drop 2
    match alookup segbits base_name with
    | none => .error .lookup
    | some entry =>
      let bits0 := if f.start = some 0 ∨ f.start = none then alookup entry none
                   else none
      match bits0 with
      | some bits => write_bits lineId offset si.2 st bits
      | none =>
        match alookup entry (some one_feature_idx) with
        | none => .error .lookup
        | some bits => write_bits lineId offset si.2 st bits

/-- Embedding of the whole per-canonical-feature loop body of
`process_fasm_line` (qlf_fasm.py, lines 204-293): the feature-value
conflict check and bookkeeping, then `process_resolved`. -/
def process_one_feature (segbits : List (List PyStr × List (Option Nat × List Bit)))
    (offset lineId : Nat) (st : AsmState) (f : OneFeature) :
    Except AsmError AsmState :=
  let one_feature_idx := f.start.getD 0
  let key := (f.parts, one_feature_idx)
  match alookup st.features key with
  | some fv =>
    if f.value ≠ fv.1 then .error .featureConflict
    else process_resolved segbits offset lineId st f one_feature_idx
  | none =>
    process_resolved segbits offset lineId
      { st with features := odSet st.features key (f.value, lineId) } f
      one_feature_idx

/-- C6: a canonical record with value 0 that passes the feature-value
conflict check changes neither the bit array nor the per-address write
map, and when its `(feature, sub-index)` key is new the `(0, line)`
entry is still recorded in the feature-value map. -/
theorem process_cleared_feature_no_write
    (segbits : List (List PyStr × List (Option Nat × List Bit)))
    (offset lineId : Nat) (st : AsmState) (f : OneFeature)
    (h0 : f.value = 0) :
    (∀ res, process_one_feature segbits offset lineId st f = .ok res →
      res.bitstream = st.bitstream ∧ res.features_by_bits = st.features_by_bits) ∧
    (alookup st.features (f.parts, f.start.getD 0) = none →
      process_one_feature segbits offset lineId st f =
        .ok { st with
                features := odSet st.features (f.parts, f.start.getD 0) (0, lineId) }) := by
  cases halo : alookup st.features (f.parts, f.start.getD 0) with
  | some fv =>
    constructor
    · intro res hres
      simp only [process_one_feature, process_resolved, h0, halo, if_true] at hres
      by_cases hv : (0 : Nat) ≠ fv.1
      · rw [if_pos hv] at hres
        exact absurd hres (by simp)
      · rw [if_neg hv] at hres
        simp only [Except.ok.injEq] at hres
        subst hres
        exact ⟨rfl, rfl⟩
    · intro hnone
      exact absurd hnone (by simp)
  | none =>
    constructor
    · intro res hres
      simp only [process_one_feature, process_resolved, h0, halo, if_true] at hres
      simp only [Except.ok.injEq] at hres
      subst hres
      exact ⟨rfl, rfl⟩
    · intro _
      simp only [process_one_feature, process_resolved, h0, halo, if_true]

/-- Witness for C6: a fresh cleared feature on a seeded one-bit state. -/
theorem process_cleared_feature_no_write_witness :
    (⟨[['p']], some 1, 0⟩ : OneFeature).value = 0 ∧
    alookup (⟨[1], [], []⟩ : AsmState).features ([['p']], 1) = none ∧
    process_one_feature [] 0 3 ⟨[1], [], []⟩ ⟨[['p']], some 1, 0⟩ =
      .ok { (⟨[1], [], []⟩ : AsmState) with
              features := odSet (⟨[1], [], []⟩ : AsmState).features ([['p']], 1) (0, 3) } :=
  ⟨rfl, by decide,
    (process_cleared_feature_no_write [] 0 3 ⟨[1], [], []⟩ ⟨[['p']], some 1, 0⟩ rfl).2
      (by decide)⟩

/-- C9: writing a bit at an address the assembler has not written yet
(`features_by_bits` has no entry for it) never raises `FeatureConflict`
and unconditionally overwrites whatever the seed bitstream holds there;
and a freshly seeded assembler has no recorded address at all. -/
theorem first_bit_write_unconditional (lineId offset : Nat) (is_inverted : Bool)
    (st : AsmState) (bit : Bit) (rest : List Bit) (seed : List Nat)
    (h : alookup st.features_by_bits (bit.idx + offset) = none) :
    write_bits lineId offset is_inverted st (bit :: rest) =
      write_bits lineId offset is_inverted
        { st with
            bitstream := st.bitstream.set (bit.idx + offset)
              (if xor bit.val is_inverted then 1 else 0),
            features_by_bits :=
              odSet st.features_by_bits (bit.idx + offset) [lineId] }
        rest ∧
    alookup (QlfFasmAssembler_init seed.length (some seed)).features_by_bits
      (bit.idx + offset) = none := by
  constructor
  · conv_lhs => rw [write_bits]
    rw [h]
  · rfl

/-- Witness for C9: the seed holds 1 at address 0, the first write stores
0 there without raising a conflict. -/
theorem first_bit_write_unconditional_witness :
    alookup (QlfFasmAssembler_init 2 (some [1, 0])).features_by_bits (0 + 0) = none ∧
    write_bits 7 0 false (QlfFasmAssembler_init 2 (some [1, 0])) [⟨0, false⟩] =
      write_bits 7 0 false
        { QlfFasmAssembler_init 2 (some [1, 0]) with
            bitstream := (QlfFasmAssembler_init 2 (some [1, 0])).bitstream.set (0 + 0)
              (if xor false false then 1 else 0),
            features_by_bits :=
              odSet (QlfFasmAssembler_init 2 (some [1, 0])).features_by_bits (0 + 0) [7] }
        [] :=
  ⟨by decide,
    (first_bit_write_unconditional 7 0 false (QlfFasmAssembler_init 2 (some [1, 0]))
      ⟨0, false⟩ [] [1, 0] (by decide)).1⟩

/-- A tile entry of `device.json` as loaded by `Database.load`
(database.py, lines 113-129). -/
structure Tile where
  type : PyStr
  x : Nat
  y : Nat
  region : Nat
  offset : Nat
  deriving DecidableEq, Repr

/-- A routing-box entry of `device.json` as loaded by `Database.load`
(database.py, lines 131-150). The list models the nested
`routing[loc][type]` dict in its iteration order. -/
structure Sbox where
  type : PyStr
  variant : Nat
  x : Nat
  y : Nat
  region : Nat
  offset : Nat
  deriving DecidableEq, Repr

/-- Key of `Database.segbits`: tiles are keyed by their type string,
routing boxes by the rendered `"{type}_{variant}"` string, modelled
structurally as `(type, none)` and `(type, some variant)`. -/
abbrev SegKey := PyStr × Option Nat

/-- The `Database` object (database.py): regions indexed by id, tiles and
routing boxes in `device.json` order, and the grouped segbits tables
(`feature -> optional index -> bit pattern`, empty for missing keys,
mirroring the code's assert-guarded accesses). -/
structure Database where
  bitstream_size : Nat
  regions : List Region
  tiles : List Tile
  routing : List Sbox
  segbits : SegKey → List (PyStr × List (Option Nat × List Bit))

/-- Python slice assignment `dst[a:a+n] = src[s:s+n]` on byte arrays:
the elements at positions `[a, a+n)` are replaced by the (clamped) source
slice. -/
def writeRange (dst : List Nat) (a : Nat) (src : List Nat) (s n : Nat) : List Nat :=
  dst.take a ++ (((src.drop s).take n) ++ dst.drop (a + n))

theorem writeRange_length (dst src : List Nat) (a s n : Nat)
    (hd : a + n ≤ dst.length) (hs : s + n ≤ src.length) :
    (writeRange dst a src s n).length = dst.length := by
  unfold writeRange
  simp only [List.length_append, List.length_take, List.length_drop]
  omega

theorem writeRange_getD_below (dst src : List Nat) (a s n i d : Nat)
    (hi : i < a) (ha : a ≤ dst.length) :
    (writeRange dst a src s n).getD i d = dst.getD i d := by
  unfold writeRange
  have hta : (dst.take a).length = a := by simp; omega
  rw [List.getD_append _ _ _ _ (by rw [hta]; omega)]
  rw [List.getD_eq_getElem _ _ (by rw [hta]; omega), List.getElem_take,
    List.getD_eq_getElem _ _ (by omega)]

theorem writeRange_getD_mid (dst src : List Nat) (a s n i d : Nat)
    (hai : a ≤ i) (hin : i < a + n) (ha : a ≤ dst.length)
    (hs : s + n ≤ src.length) :
    (writeRange dst a src s n).getD i d = src.getD (s + (i - a)) d := by
  unfold writeRange
  have hta : (dst.take a).length = a := by simp; omega
  have htm : ((src.drop s).take n).length = n := by simp; omega
  rw [List.getD_append_right _ _ _ _ (by rw [hta]; omega), hta]
  rw [List.getD_append _ _ _ _ (by rw [htm]; omega)]
  rw [List.getD_eq_getElem _ _ (by rw [htm]; omega), List.getElem_take,
    List.getElem_drop, List.getD_eq_getElem _ _ (by omega)]

theorem writeRange_getD_above (dst src : List Nat) (a s n i d : Nat)
    (hai : a + n ≤ i) (ha : a ≤ dst.length) (hs : s + n ≤ src.length) :
    (writeRange dst a src s n).getD i d = dst.getD i d := by
  unfold writeRange
  have hta : (dst.take a).length = a := by simp; omega
  have htm : ((src.drop s).take n).length = n := by simp; omega
  rw [List.getD_append_right _ _ _ _ (by rw [hta]; omega), hta]
  rw [List.getD_append_right _ _ _ _ (by rw [htm]; omega), htm]
  rw [List.getD_eq_getElem?_getD, List.getD_eq_getElem?_getD, List.getElem?_drop]
  have : a + n + (i - a - n) = i := by omega
  rw [this]

namespace TextBitstream

/-- Embedding of `TextBitstream.from_bits` (bitstream.py, lines 63-88):
pad each region (chain) to the maximum region length, placing region
`region_id`'s bits at `region_id * max_region`. -/
def from_bits (raw_bitstream : List Nat) (database : Database) : List Nat :=
  let max_region := maxRegionLength database.regions
  let padded_length := max_region * database.regions.length
  database.regions.enum.foldl
    (fun bitstream rr =>
      writeRange bitstream (rr.1 * max_region) raw_bitstream rr.2.offset rr.2.length)
    (List.replicate padded_length 0)

/-- Embedding of `TextBitstream.to_bits` (bitstream.py, lines 117-156):
remove the padding, copying region `region_id`'s `length` bits from
`region_id * max_region` back to the region's offset. The length checks
only log. -/
def to_bits (bs : List Nat) (database : Database) : List Nat :=
  let max_region := maxRegionLength database.regions
  database.regions.enum.foldl
    (fun bitstream rr =>
      writeRange bitstream rr.2.offset bs (rr.1 * max_region) rr.2.length)
    (List.replicate database.bitstream_size 0)

end TextBitstream

theorem length_le_maxRegionLength (rs : List Region) (r : Region) (hr : r ∈ rs) :
    r.length ≤ maxRegionLength rs := by
  have key : ∀ (l : List Region) (a : Nat), r ∈ l →
      r.length ≤ l.foldl (fun m q => max m q.length) a := by
    intro l
    induction l with
    | nil => intro a h; cases h
    | cons q t ih =>
      intro a h
      rcases List.mem_cons.mp h with h | h
      · subst h
        have base : ∀ (u : List Region) (x : Nat), x ≤ u.foldl (fun m q => max m q.length) x := by
          intro u
          induction u with
          | nil => intro x; exact Nat.le_refl x
          | cons v w ihw =>
            intro x
            simp only [List.foldl_cons]
            exact Nat.le_trans (Nat.le_max_left _ _) (ihw (max x v.length))
        simp only [List.foldl_cons]
        exact Nat.le_trans (Nat.le_max_right a r.length) (base t (max a r.length))
      · exact ih _ h
  exact key rs 0 hr

theorem replicate_getD_zero (m i : Nat) : (List.replicate m (0 : Nat)).getD i 0 = 0 := by
  by_cases h : i < m
  · rw [List.getD_eq_getElem _ _ (by simp; omega), List.getElem_replicate]
  · rw [List.getD_eq_default _ _ (by simp; omega)]

theorem encode_fold_length (raw : List Nat) (Lmax : Nat) :
    ∀ (rs : List Region) (n : Nat) (bs : List Nat),
      (∀ r ∈ rs, r.length ≤ Lmax) →
      (∀ r ∈ rs, r.offset + r.length ≤ raw.length) →
      (n + rs.length) * Lmax ≤ bs.length →
      ((List.enumFrom n rs).foldl
        (fun bitstream rr => writeRange bitstream (rr.1 * Lmax) raw rr.2.offset rr.2.length)
        bs).length = bs.length := by
  intro rs
  induction rs with
  | nil => intro n bs _ _ _; rfl
  | cons r rest ih =>
    intro n bs hlen hsrc hbs
    simp only [List.length_cons] at hbs
    rw [List.enumFrom_cons, List.foldl_cons]
    have hstep : (n + 1) * Lmax ≤ bs.length :=
      Nat.le_trans (Nat.mul_le_mul_right _ (by omega)) hbs
    have hfit : n * Lmax + r.length ≤ bs.length := by
      have h1 : r.length ≤ Lmax := hlen r (by simp)
      have h2 : (n + 1) * Lmax = n * Lmax + Lmax := by ring
      omega
    have hwl : (writeRange bs (n * Lmax) raw r.offset r.length).length = bs.length :=
      writeRange_length _ _ _ _ _ hfit (hsrc r (by simp))
    have hrec := ih (n + 1) (writeRange bs (n * Lmax) raw r.offset r.length)
      (fun q hq => hlen q (by simp [hq]))
      (fun q hq => hsrc q (by simp [hq]))
      (by rw [hwl]
          have harith : n + 1 + rest.length = n + (rest.length + 1) := by omega
          rw [harith]
          exact hbs)
    rw [hrec, hwl]

theorem encode_fold_getD_below (raw : List Nat) (Lmax : Nat) :
    ∀ (rs : List Region) (n : Nat) (bs : List Nat) (p d : Nat),
      (∀ r ∈ rs, r.length ≤ Lmax) →
      (∀ r ∈ rs, r.offset + r.length ≤ raw.length) →
      (n + rs.length) * Lmax ≤ bs.length →
      p < n * Lmax →
      ((List.enumFrom n rs).foldl
        (fun bitstream rr => writeRange bitstream (rr.1 * Lmax) raw rr.2.offset rr.2.length)
        bs).getD p d = bs.getD p d := by
  intro rs
  induction rs with
  | nil => intro n bs p d _ _ _ _; rfl
  | cons r rest ih =>
    intro n bs p d hlen hsrc hbs hp
    simp only [List.length_cons] at hbs
    rw [List.enumFrom_cons, List.foldl_cons]
    have h1 : r.length ≤ Lmax := hlen r (by simp)
    have hstep : (n + 1) * Lmax ≤ bs.length :=
      Nat.le_trans (Nat.mul_le_mul_right _ (by omega)) hbs
    have hfit : n * Lmax + r.length ≤ bs.length := by
      have h2 : (n + 1) * Lmax = n * Lmax + Lmax := by ring
      omega
    have hwl : (writeRange bs (n * Lmax) raw r.offset r.length).length = bs.length :=
      writeRange_length _ _ _ _ _ hfit (hsrc r (by simp))
    have hrec := ih (n + 1) (writeRange bs (n * Lmax) raw r.offset r.length) p d
      (fun q hq => hlen q (by simp [hq]))
      (fun q hq => hsrc q (by simp [hq]))
      (by rw [hwl]
          have harith : n + 1 + rest.length = n + (rest.length + 1) := by omega
          rw [harith]
          exact hbs)
      (by
        have h2 : n * Lmax ≤ (n + 1) * Lmax := Nat.mul_le_mul_right _ (by omega)
        omega)
    rw [hrec]
    exact writeRange_getD_below _ _ _ _ _ _ _ hp (by omega)

theorem encode_fold_getD_at (raw : List Nat) (Lmax : Nat) :
    ∀ (rs : List Region) (n : Nat) (bs : List Nat) (k j d : Nat),
      (∀ r ∈ rs, r.length ≤ Lmax) →
      (∀ r ∈ rs, r.offset + r.length ≤ raw.length) →
      (n + rs.length) * Lmax ≤ bs.length →
      k < rs.length → j < Lmax →
      ((List.enumFrom n rs).foldl
        (fun bitstream rr => writeRange bitstream (rr.1 * Lmax) raw rr.2.offset rr.2.length)
        bs).getD ((n + k) * Lmax + j) d =
        if j < (rs.getD k ⟨0, 0⟩).length
        then raw.getD ((rs.getD k ⟨0, 0⟩).offset + j) d
        else bs.getD ((n + k) * Lmax + j) d := by
  intro rs
  induction rs with
  | nil => intro n bs k j d _ _ _ hk _; simp at hk
  | cons r rest ih =>
    intro n bs k j d hlen hsrc hbs hk hj
    simp only [List.length_cons] at hbs
    rw [List.enumFrom_cons, List.foldl_cons]
    have h1 : r.length ≤ Lmax := hlen r (by simp)
    have hstep : (n + 1) * Lmax ≤ bs.length :=
      Nat.le_trans (Nat.mul_le_mul_right _ (by omega)) hbs
    have hmul : (n + 1) * Lmax = n * Lmax + Lmax := by ring
    have hfit : n * Lmax + r.length ≤ bs.length := by omega
    have hwl : (writeRange bs (n * Lmax) raw r.offset r.length).length = bs.length :=
      writeRange_length _ _ _ _ _ hfit (hsrc r (by simp))
    have hbs' : (n + 1 + rest.length) * Lmax ≤
        (writeRange bs (n * Lmax) raw r.offset r.length).length := by
      rw [hwl]
      have harith : n + 1 + rest.length = n + (rest.length + 1) := by omega
      rw [harith]
      exact hbs
    cases k with
    | zero =>
      simp only [List.getD_cons_zero, Nat.add_zero]
      rw [encode_fold_getD_below raw Lmax rest (n + 1)
        (writeRange bs (n * Lmax) raw r.offset r.length) (n * Lmax + j) d
        (fun q hq => hlen q (by simp [hq]))
        (fun q hq => hsrc q (by simp [hq]))
        hbs' (by omega)]
      by_cases hjr : j < r.length
      · rw [if_pos hjr]
        rw [writeRange_getD_mid _ _ _ _ _ _ _ (by omega) (by omega) (by omega)
          (hsrc r (by simp))]
        congr 1
        omega
      · rw [if_neg hjr]
        exact writeRange_getD_above _ _ _ _ _ _ _ (by omega) (by omega)
          (hsrc r (by simp))
    | succ k' =>
      simp only [List.getD_cons_succ]
      have hrec := ih (n + 1) (writeRange bs (n * Lmax) raw r.offset r.length) k' j d
        (fun q hq => hlen q (by simp [hq]))
        (fun q hq => hsrc q (by simp [hq]))
        hbs' (by simp at hk; omega) hj
      have harith : (n + 1 + k') * Lmax = (n + (k' + 1)) * Lmax := by ring_nf
      rw [harith] at hrec
      rw [hrec]
      by_cases hjr : j < (rest.getD k' ⟨0, 0⟩).length
      · rw [if_pos hjr, if_pos hjr]
      · rw [if_neg hjr, if_neg hjr]
        apply writeRange_getD_above _ _ _ _ _ _ _ _ (by omega) (hsrc r (by simp))
        have h2 : (n + 1) * Lmax ≤ (n + (k' + 1)) * Lmax :=
          Nat.mul_le_mul_right _ (by omega)
        omega

theorem decode_fold_length (src : List Nat) (Lmax : Nat) :
    ∀ (rs : List Region) (n : Nat) (bs : List Nat),
      (∀ r ∈ rs, r.length ≤ Lmax) →
      (∀ r ∈ rs, r.offset + r.length ≤ bs.length) →
      (n + rs.length) * Lmax ≤ src.length →
      ((List.enumFrom n rs).foldl
        (fun bitstream rr => writeRange bitstream rr.2.offset src (rr.1 * Lmax) rr.2.length)
        bs).length = bs.length := by
  intro rs
  induction rs with
  | nil => intro n bs _ _ _; rfl
  | cons r rest ih =>
    intro n bs hlen hdst hsrc
    simp only [List.length_cons] at hsrc
    rw [List.enumFrom_cons, List.foldl_cons]
    have h1 : r.length ≤ Lmax := hlen r (by simp)
    have hstep : (n + 1) * Lmax ≤ src.length :=
      Nat.le_trans (Nat.mul_le_mul_right _ (by omega)) hsrc
    have hmul : (n + 1) * Lmax = n * Lmax + Lmax := by ring
    have hsfit : n * Lmax + r.length ≤ src.length := by omega
    have hwl : (writeRange bs r.offset src (n * Lmax) r.length).length = bs.length :=
      writeRange_length _ _ _ _ _ (hdst r (by simp)) hsfit
    have hrec := ih (n + 1) (writeRange bs r.offset src (n * Lmax) r.length)
      (fun q hq => hlen q (by simp [hq]))
      (fun q hq => by rw [hwl]; exact hdst q (by simp [hq]))
      (by
        have harith : n + 1 + rest.length = n + (rest.length + 1) := by omega
        rw [harith]
        exact hsrc)
    rw [hrec, hwl]

theorem decode_fold_getD_notin (src : List Nat) (Lmax : Nat) :
    ∀ (rs : List Region) (n : Nat) (bs : List Nat) (p d : Nat),
      (∀ r ∈ rs, r.length ≤ Lmax) →
      (∀ r ∈ rs, r.offset + r.length ≤ bs.length) →
      (n + rs.length) * Lmax ≤ src.length →
      (∀ r ∈ rs, ¬ (r.offset ≤ p ∧ p < r.offset + r.length)) →
      ((List.enumFrom n rs).foldl
        (fun bitstream rr => writeRange bitstream rr.2.offset src (rr.1 * Lmax) rr.2.length)
        bs).getD p d = bs.getD p d := by
  intro rs
  induction rs with
  | nil => intro n bs p d _ _ _ _; rfl
  | cons r rest ih =>
    intro n bs p d hlen hdst hsrc hnotin
    simp only [List.length_cons] at hsrc
    rw [List.enumFrom_cons, List.foldl_cons]
    have h1 : r.length ≤ Lmax := hlen r (by simp)
    have hstep : (n + 1) * Lmax ≤ src.length :=
      Nat.le_trans (Nat.mul_le_mul_right _ (by omega)) hsrc
    have hmul : (n + 1) * Lmax = n * Lmax + Lmax := by ring
    have hsfit : n * Lmax + r.length ≤ src.length := by omega
    have hwl : (writeRange bs r.offset src (n * Lmax) r.length).length = bs.length :=
      writeRange_length _ _ _ _ _ (hdst r (by simp)) hsfit
    have hrec := ih (n + 1) (writeRange bs r.offset src (n * Lmax) r.length) p d
      (fun q hq => hlen q (by simp [hq]))
      (fun q hq => by rw [hwl]; exact hdst q (by simp [hq]))
      (by
        have harith : n + 1 + rest.length = n + (rest.length + 1) := by omega
        rw [harith]
        exact hsrc)
      (fun q hq => hnotin q (by simp [hq]))
    rw [hrec]
    have hr := hnotin r (by simp)
    have hdr := hdst r (by simp)
    by_cases hpo : p < r.offset
    · exact writeRange_getD_below _ _ _ _ _ _ _ hpo (by omega)
    · exact writeRange_getD_above _ _ _ _ _ _ _ (by omega) (by omega) hsfit

theorem decode_fold_getD_at (src : List Nat) (Lmax : Nat) :
    ∀ (rs : List Region) (n : Nat) (bs : List Nat) (k p d : Nat),
      (∀ r ∈ rs, r.length ≤ Lmax) →
      (∀ r ∈ rs, r.offset + r.length ≤ bs.length) →
      (n + rs.length) * Lmax ≤ src.length →
      List.Pairwise
        (fun a b => a.offset + a.length ≤ b.offset ∨ b.offset + b.length ≤ a.offset) rs →
      k < rs.length →
      (rs.getD k ⟨0, 0⟩).offset ≤ p →
      p < (rs.getD k ⟨0, 0⟩).offset + (rs.getD k ⟨0, 0⟩).length →
      ((List.enumFrom n rs).foldl
        (fun bitstream rr => writeRange bitstream rr.2.offset src (rr.1 * Lmax) rr.2.length)
        bs).getD p d =
        src.getD ((n + k) * Lmax + (p - (rs.getD k ⟨0, 0⟩).offset)) d := by
  intro rs
  induction rs with
  | nil => intro n bs k p d _ _ _ _ hk _ _; simp at hk
  | cons r rest ih =>
    intro n bs k p d hlen hdst hsrc hpair hk hp1 hp2
    simp only [List.length_cons] at hsrc
    rw [List.enumFrom_cons, List.foldl_cons]
    have h1 : r.length ≤ Lmax := hlen r (by simp)
    have hstep : (n + 1) * Lmax ≤ src.length :=
      Nat.le_trans (Nat.mul_le_mul_right _ (by omega)) hsrc
    have hmul : (n + 1) * Lmax = n * Lmax + Lmax := by ring
    have hsfit : n * Lmax + r.length ≤ src.length := by omega
    have hwl : (writeRange bs r.offset src (n * Lmax) r.length).length = bs.length :=
      writeRange_length _ _ _ _ _ (hdst r (by simp)) hsfit
    have hbs' : (n + 1 + rest.length) * Lmax ≤ src.length := by
      have harith : n + 1 + rest.length = n + (rest.length + 1) := by omega
      rw [harith]
      exact hsrc
    rw [List.pairwise_cons] at hpair
    cases k with
    | zero =>
      simp only [List.getD_cons_zero, Nat.add_zero] at hp1 hp2 ⊢
      rw [decode_fold_getD_notin src Lmax rest (n + 1)
        (writeRange bs r.offset src (n * Lmax) r.length) p d
        (fun q hq => hlen q (by simp [hq]))
        (fun q hq => by rw [hwl]; exact hdst q (by simp [hq]))
        hbs'
        (by
          intro q hq hcontra
          rcases hpair.1 q hq with hcase | hcase
          · omega
          · omega)]
      have hdr := hdst r (by simp)
      rw [writeRange_getD_mid _ _ _ _ _ _ _ hp1 hp2 (by omega) hsfit]
    | succ k' =>
      simp only [List.getD_cons_succ] at hp1 hp2 ⊢
      have hrec := ih (n + 1) (writeRange bs r.offset src (n * Lmax) r.length) k' p d
        (fun q hq => hlen q (by simp [hq]))
        (fun q hq => by rw [hwl]; exact hdst q (by simp [hq]))
        hbs' hpair.2 (by simp at hk; omega) hp1 hp2
      have harith : (n + 1 + k') * Lmax = (n + (k' + 1)) * Lmax := by ring_nf
      rw [harith] at hrec
      exact hrec

theorem list_ext_getD (l₁ l₂ : List Nat) (hlen : l₁.length = l₂.length)
    (h : ∀ i, i < l₁.length → l₁.getD i 0 = l₂.getD i 0) : l₁ = l₂ := by
  apply List.ext_getElem hlen
  intro i h₁ h₂
  have := h i h₁
  rwa [List.getD_eq_getElem _ _ h₁, List.getD_eq_getElem _ _ h₂] at this

theorem region_getD_mem (rs : List Region) (k : Nat) (hk : k < rs.length) :
    rs.getD k ⟨0, 0⟩ ∈ rs := by
  rw [List.getD_eq_getElem _ _ hk]
  exact List.getElem_mem hk

/-- C3: for a device whose regions (ids `0..R-1`) are pairwise disjoint
and partition `[0, bitstream_size)`, `TextBitstream.from_bits` produces
an array of length `R * Lmax` with region `r`'s bits at
`[r*Lmax, r*Lmax + length_r)` and zeros in the remaining padding, and
`to_bits` inverts it exactly. -/
theorem TextBitstream.from_bits_to_bits_roundtrip (database : Database) (raw : List Nat)
    (hraw : raw.length = database.bitstream_size)
    (hfit : ∀ r ∈ database.regions, r.offset + r.length ≤ database.bitstream_size)
    (hdisj : List.Pairwise
      (fun a b => a.offset + a.length ≤ b.offset ∨ b.offset + b.length ≤ a.offset)
      database.regions)
    (hcover : ∀ p, p < database.bitstream_size → ∃ k, k < database.regions.length ∧
      (database.regions.getD k ⟨0, 0⟩).offset ≤ p ∧
      p < (database.regions.getD k ⟨0, 0⟩).offset + (database.regions.getD k ⟨0, 0⟩).length)
    (hsum : database.bitstream_size = (database.regions.map Region.length).sum) :
    (TextBitstream.from_bits raw database).length =
      database.regions.length * maxRegionLength database.regions ∧
    (∀ k j, k < database.regions.length →
      j < (database.regions.getD k ⟨0, 0⟩).length →
      (TextBitstream.from_bits raw database).getD
          (k * maxRegionLength database.regions + j) 0 =
        raw.getD ((database.regions.getD k ⟨0, 0⟩).offset + j) 0) ∧
    (∀ k j, k < database.regions.length →
      (database.regions.getD k ⟨0, 0⟩).length ≤ j →
      j < maxRegionLength database.regions →
      (TextBitstream.from_bits raw database).getD
          (k * maxRegionLength database.regions + j) 0 = 0) ∧
    TextBitstream.to_bits (TextBitstream.from_bits raw database) database = raw := by
  have hlen : ∀ r ∈ database.regions, r.length ≤ maxRegionLength database.regions :=
    fun r hr => length_le_maxRegionLength database.regions r hr
  have hsrc : ∀ r ∈ database.regions, r.offset + r.length ≤ raw.length := by
    intro r hr
    rw [hraw]
    exact hfit r hr
  have hfb : TextBitstream.from_bits raw database =
      (List.enumFrom 0 database.regions).foldl
        (fun bitstream rr => writeRange bitstream
          (rr.1 * maxRegionLength database.regions) raw rr.2.offset rr.2.length)
        (List.replicate
          (maxRegionLength database.regions * database.regions.length) 0) := rfl
  have hbs0 : (0 + database.regions.length) * maxRegionLength database.regions ≤
      (List.replicate
        (maxRegionLength database.regions * database.regions.length) (0 : Nat)).length := by
    simp only [List.length_replicate]
    exact Nat.le_of_eq (by ring)
  have hlen1 : (TextBitstream.from_bits raw database).length =
      maxRegionLength database.regions * database.regions.length := by
    rw [hfb, encode_fold_length raw _ database.regions 0 _ hlen hsrc hbs0]
    simp
  have hchar : ∀ k j d, k < database.regions.length →
      j < maxRegionLength database.regions →
      (TextBitstream.from_bits raw database).getD
          (k * maxRegionLength database.regions + j) d =
        if j < (database.regions.getD k ⟨0, 0⟩).length
        then raw.getD ((database.regions.getD k ⟨0, 0⟩).offset + j) d
        else (List.replicate
          (maxRegionLength database.regions * database.regions.length) (0 : Nat)).getD
            (k * maxRegionLength database.regions + j) d := by
    intro k j d hk hj
    rw [hfb]
    have := encode_fold_getD_at raw (maxRegionLength database.regions)
      database.regions 0
      (List.replicate (maxRegionLength database.regions * database.regions.length) 0)
      k j d hlen hsrc hbs0 hk hj
    simpa using this
  have hall : ∀ k j, k < database.regions.length →
      j < (database.regions.getD k ⟨0, 0⟩).length →
      (TextBitstream.from_bits raw database).getD
          (k * maxRegionLength database.regions + j) 0 =
        raw.getD ((database.regions.getD k ⟨0, 0⟩).offset + j) 0 := by
    intro k j hk hj
    have hjL : j < maxRegionLength database.regions :=
      Nat.lt_of_lt_of_le hj (hlen _ (region_getD_mem database.regions k hk))
    rw [hchar k j 0 hk hjL, if_pos hj]
  refine ⟨by rw [hlen1]; ring, hall, ?_, ?_⟩
  · intro k j hk hj1 hj2
    rw [hchar k j 0 hk hj2, if_neg (by omega), replicate_getD_zero]
  · have htb : TextBitstream.to_bits (TextBitstream.from_bits raw database) database =
        (List.enumFrom 0 database.regions).foldl
          (fun bitstream rr => writeRange bitstream rr.2.offset
            (TextBitstream.from_bits raw database)
            (rr.1 * maxRegionLength database.regions) rr.2.length)
          (List.replicate database.bitstream_size 0) := rfl
    have hsrcbound : (0 + database.regions.length) * maxRegionLength database.regions ≤
        (TextBitstream.from_bits raw database).length := by
      rw [hlen1]
      exact Nat.le_of_eq (by ring)
    have hdst0 : ∀ r ∈ database.regions, r.offset + r.length ≤
        (List.replicate database.bitstream_size (0 : Nat)).length := by
      intro r hr
      simpa using hfit r hr
    have htblen : (TextBitstream.to_bits (TextBitstream.from_bits raw database)
        database).length = database.bitstream_size := by
      rw [htb, decode_fold_length _ _ database.regions 0 _ hlen hdst0 hsrcbound]
      simp
    apply list_ext_getD _ _ (by rw [htblen, hraw])
    intro p hp
    rw [htblen] at hp
    obtain ⟨k, hk, hk1, hk2⟩ := hcover p hp
    rw [htb, decode_fold_getD_at _ _ database.regions 0 _ k p 0
      hlen hdst0 hsrcbound hdisj hk hk1 hk2]
    have hmem := region_getD_mem database.regions k hk
    have hjlt : p - (database.regions.getD k ⟨0, 0⟩).offset <
        (database.regions.getD k ⟨0, 0⟩).length := by omega
    have := hall k (p - (database.regions.getD k ⟨0, 0⟩).offset) hk hjlt
    rw [Nat.zero_add] at *
    rw [this]
    congr 1
    omega

/-- A concrete two-region device for the C3 witness. -/
def textDbWit : Database :=
  ⟨3, [⟨0, 2⟩, ⟨2, 1⟩], [], [], fun _ => []⟩

/-- Witness for C3 on `textDbWit` with the raw array `[1, 0, 1]`. -/
theorem TextBitstream.from_bits_to_bits_roundtrip_witness :
    ([1, 0, 1] : List Nat).length = textDbWit.bitstream_size ∧
    (∀ r ∈ textDbWit.regions, r.offset + r.length ≤ textDbWit.bitstream_size) ∧
    (TextBitstream.from_bits [1, 0, 1] textDbWit).length =
      textDbWit.regions.length * maxRegionLength textDbWit.regions ∧
    TextBitstream.to_bits (TextBitstream.from_bits [1, 0, 1] textDbWit) textDbWit =
      [1, 0, 1] := by
  have hcover : ∀ p, p < textDbWit.bitstream_size →
      ∃ k, k < textDbWit.regions.length ∧
        (textDbWit.regions.getD k ⟨0, 0⟩).offset ≤ p ∧
        p < (textDbWit.regions.getD k ⟨0, 0⟩).offset +
          (textDbWit.regions.getD k ⟨0, 0⟩).length := by
    intro p hp
    have hp3 : p = 0 ∨ p = 1 ∨ p = 2 := by
      have : textDbWit.bitstream_size = 3 := rfl
      omega
    rcases hp3 with rfl | rfl | rfl
    · exact ⟨0, by decide, by decide, by decide⟩
    · exact ⟨0, by decide, by decide, by decide⟩
    · exact ⟨1, by decide, by decide, by decide⟩
  have h := TextBitstream.from_bits_to_bits_roundtrip textDbWit [1, 0, 1]
    (by decide) (by decide) (by decide) hcover (by decide)
  exact ⟨by decide, by decide, h.1, h.2.2.2⟩

/-- An lxml XML element: a tag and its child elements (attributes and
text are irrelevant for the checked condition). -/
inductive XmlElem where
  | mk (tag : PyStr) (children : List XmlElem)

/-- The tag of an element. -/
def XmlElem.tag : XmlElem → PyStr
  | .mk t _ => t

/-- The child elements of an element. -/
def XmlElem.children : XmlElem → List XmlElem
  | .mk _ c => c

/-- lxml `element.find(tag)`: the first direct child with the given tag,
or `None`. -/
def xmlFind (e : XmlElem) (t : PyStr) : Option XmlElem :=
  e.children.find? (fun c => c.tag == t)

/-- lxml truthiness of an `Element`: `bool(element)` is
`len(element) != 0`, i.e. an element with no children is falsy. -/
def elemTruthy (e : XmlElem) : Bool :=
  e.children.length != 0

/-- Python `not xml_bit.find(t)`: `True` when the child is absent, and
also `True` when the child element itself has no children. -/
def pyNotFind (bit : XmlElem) (t : PyStr) : Bool :=
  match xmlFind bit t with
  | none => true
  | some c => ! elemTruthy c

/-- The assert condition of `parse_fabric_bitstream`
(qlf_fasm_db_builder.py, lines 104-105): the `<bit>` is accepted (the
assert passes, no `Unsupported` failure) iff this is `true`. -/
def bitAccepted (bit : XmlElem) : Bool :=
  pyNotFind bit ['w', 'l'] && pyNotFind bit ['b', 'l'] && pyNotFind bit ['f', 'r', 'a', 'm', 'e']

/-- C8 fails on the code: a `<bit>` with a childless `<wl/>` child is
silently accepted, because lxml's `Element.__bool__` is based on the
number of children and the code spells the check `not xml_bit.find("wl")`
instead of `xml_bit.find("wl") is None`. A `<wl>` child that itself has a
child is rejected, showing the check only fires in that case. -/
theorem bit_with_empty_wl_child_accepted :
    xmlFind (.mk ['b', 'i', 't'] [.mk ['w', 'l'] []]) ['w', 'l'] =
      some (.mk ['w', 'l'] []) ∧
    bitAccepted (.mk ['b', 'i', 't'] [.mk ['w', 'l'] []]) = true ∧
    bitAccepted
      (.mk ['b', 'i', 't'] [.mk ['w', 'l'] [.mk ['x'] []]]) = false := by
  refine ⟨rfl, rfl, rfl⟩

/-- The full dotted name of an emitted FASM feature,
`fpga_top.<tag>.<feature>` with tag `grid_{type}_{x}__{y}_` for tiles and
`{type}_{x}__{y}_` for routing boxes, modelled structurally (the rendered
strings are distinct whenever these components are). -/
structure FullName where
  grid : Bool
  btype : PyStr
  x : Nat
  y : Nat
  feature : PyStr
  deriving DecidableEq, Repr

/-- Embedding of `QlfFasmDisassembler.match_segbits` (qlf_fasm.py, lines
329-342): the pattern matches iff every segbit's stored value equals the
bitstream bit at its absolute address. -/
def match_segbits (bitstream : List Nat) (segbits : List Bit) (offsetv : Nat) : Bool :=
  segbits.all (fun segbit =>
    bitstream.getD (segbit.idx + offsetv) 0 == (if segbit.val then 1 else 0))

/-- Embedding of the nested helper `emit_feature` (qlf_fasm.py, lines
351-362): a first emission installs a zero-initialised width-wide index
dict, then the indexed value is assigned. -/
def emit_feature (features : List (FullName × List (Nat × Nat))) (feature : FullName)
    (width : Nat) (index : Option Nat) (value : Bool) :
    List (FullName × List (Nat × Nat)) :=
  let index := index.getD 0
  let fdata := match alookup features feature with
    | some d => d
    | none => (List.range width).map (fun k => (k, 0))
  odSet features feature (odSet fdata index (if value then 1 else 0))

/-- Insertion into a descending-sorted list, for Python
`sorted(keys, reverse=True)`. -/
def insertDesc (a : Nat) : List Nat → List Nat
  | [] => [a]
  | b :: t => if b ≤ a then a :: b :: t else b :: insertDesc a t

/-- Python `sorted(data.keys(), reverse=True)`. -/
def sortDesc : List Nat → List Nat
  | [] => []
  | a :: t => insertDesc a (sortDesc t)

/-- A `SetFasmFeature` produced by the disassembler (value format and the
feature string modelled structurally). -/
structure DisFeature where
  feature : FullName
  start : Option Nat
  «end» : Option Nat
  value : Nat
  deriving DecidableEq, Repr

/-- Embedding of the nested helper `convert_to_set_features` (qlf_fasm.py,
lines 364-395): single-bit features become unindexed records, multi-bit
features become one `[width-1:0]` record whose value reads the per-index
bits most-significant-first. -/
def convert_to_set_features (features : List (FullName × List (Nat × Nat))) :
    List DisFeature :=
  features.map (fun fd =>
    let width := fd.2.length
    if width = 1 then
      ⟨fd.1, none, none, (alookup fd.2 0).getD 0⟩
    else
      let keys := sortDesc (fd.2.map Prod.fst)
      let value := keys.foldl
        (fun acc k => 2 * acc + (if (alookup fd.2 k).getD 0 ≠ 0 then 1 else 0)) 0
      ⟨fd.1, some 0, some (width - 1), value⟩)

/-- The common body of the two block loops of `disassemble_bitstream`
(qlf_fasm.py, lines 401-465): for each feature of the block's segbits
table and each sub-index, match the pattern at the block's absolute
offset and emit the result. -/
def scan_segbits (bitstream : List Nat) (offsetv : Nat) (mkName : PyStr → FullName)
    (features : List (FullName × List (Nat × Nat)))
    (segbits : List (PyStr × List (Option Nat × List Bit))) :
    List (FullName × List (Nat × Nat)) :=
  segbits.foldl (fun features fd =>
    let width := fd.2.length
    fd.2.foldl (fun features ib =>
      emit_feature features (mkName fd.1) width ib.1
        (match_segbits bitstream ib.2 offsetv)) features) features

/-- Embedding of `QlfFasmDisassembler.disassemble_bitstream` (qlf_fasm.py,
lines 344-470): tiles in database order, then routing boxes in database
order, then conversion of the accumulated ordered feature dict. -/
def disassemble_bitstream (database : Database) (bitstream : List Nat) :
    List DisFeature :=
  let features : List (FullName × List (Nat × Nat)) := []
  let features := database.tiles.foldl (fun features tile =>
    scan_segbits bitstream
      (tile.offset + (database.regions.getD tile.region ⟨0, 0⟩).offset)
      (fun feat => ⟨true, tile.type, tile.x, tile.y, feat⟩)
      features (database.segbits (tile.type, none))) features
  let features := database.routing.foldl (fun features sbox =>
    scan_segbits bitstream
      (sbox.offset + (database.regions.getD sbox.region ⟨0, 0⟩).offset)
      (fun feat => ⟨false, sbox.type, sbox.x, sbox.y, feat⟩)
      features (database.segbits (sbox.type, some sbox.variant))) features
  convert_to_set_features features

/-- Row-major comparison of grid locations `(x, y)`: earlier row (`y`)
first, then earlier column (`x`). -/
def rowMajorLE (a b : Nat × Nat) : Bool :=
  decide (a.2 < b.2) || (decide (a.2 = b.2) && decide (a.1 ≤ b.1))

/-- Lexicographic `(x, y)` comparison (the other reading of "sorted by
(x, y)"). -/
def xyLexLE (a b : Nat × Nat) : Bool :=
  decide (a.1 < b.1) || (decide (a.1 = b.1) && decide (a.2 ≤ b.2))

/-- A location list is sorted when consecutive entries obey `le`. -/
def locSorted (le : Nat × Nat → Nat × Nat → Bool) : List (Nat × Nat) → Bool
  | [] => true
  | [_] => true
  | a :: b :: t => le a b && locSorted le (b :: t)

/-- C7's counterexample database: two tiles of the same type listed at
grid locations `(1, 1)` then `(0, 0)`. -/
def disDbCex : Database :=
  ⟨4, [⟨0, 4⟩], [⟨['t'], 1, 1, 0, 0⟩, ⟨['t'], 0, 0, 0, 2⟩], [],
    fun key => if key = (['t'], none) then [(['f'], [(none, [⟨0, true⟩])])] else []⟩

/-- C7 fails on the code: `disassemble_bitstream` emits features in the
database's tile order, so for `disDbCex` the output locations are
`[(1, 1), (0, 0)]`, which is not sorted row-major (nor `(x, y)`-lexicographically). -/
theorem disassemble_order_not_sorted_cex :
    (disassemble_bitstream disDbCex [0, 0, 0, 0]).map
        (fun f => (f.feature.x, f.feature.y)) = [(1, 1), (0, 0)] ∧
    locSorted rowMajorLE
      ((disassemble_bitstream disDbCex [0, 0, 0, 0]).map
        (fun f => (f.feature.x, f.feature.y))) = false ∧
    locSorted xyLexLE
      ((disassemble_bitstream disDbCex [0, 0, 0, 0]).map
        (fun f => (f.feature.x, f.feature.y))) = false := by
  refine ⟨rfl, rfl, rfl⟩

theorem alookup_eq_none_iff {α β : Type} [DecidableEq α] (od : List (α × β)) (k : α) :
    alookup od k = none ↔ k ∉ od.map Prod.fst := by
  induction od with
  | nil => simp [alookup]
  | cons kv t ih =>
    obtain ⟨k', v'⟩ := kv
    by_cases hk : k' = k
    · subst hk
      simp [alookup]
    · simp [alookup, hk, ih, Ne.symm hk]

theorem odSet_append_of_none {α β : Type} [DecidableEq α] (od : List (α × β))
    (k : α) (v : β) (h : alookup od k = none) : odSet od k v = od ++ [(k, v)] := by
  induction od with
  | nil => rfl
  | cons kv t ih =>
    obtain ⟨k', v'⟩ := kv
    simp only [alookup] at h
    by_cases hk : k' = k
    · rw [if_pos hk] at h
      exact absurd h (by simp)
    · rw [if_neg hk] at h
      simp only [odSet, if_neg hk, List.cons_append, List.cons.injEq, true_and]
      exact ih h

theorem odSet_keys_of_some {α β : Type} [DecidableEq α] (od : List (α × β))
    (k : α) (v w : β) (h : alookup od k = some w) :
    (odSet od k v).map Prod.fst = od.map Prod.fst := by
  induction od with
  | nil => simp [alookup] at h
  | cons kv t ih =>
    obtain ⟨k', v'⟩ := kv
    simp only [alookup] at h
    by_cases hk : k' = k
    · subst hk
      simp [odSet]
    · rw [if_neg hk] at h
      simp only [odSet, if_neg hk, List.map_cons, List.cons.injEq, true_and]
      exact ih h

theorem emit_feature_keys (od : List (FullName × List (Nat × Nat))) (g : FullName)
    (w : Nat) (i : Option Nat) (val : Bool) :
    (emit_feature od g w i val).map Prod.fst =
      if g ∈ od.map Prod.fst then od.map Prod.fst else od.map Prod.fst ++ [g] := by
  by_cases hmem : g ∈ od.map Prod.fst
  · rw [if_pos hmem]
    cases hd : alookup od g with
    | none => exact absurd ((alookup_eq_none_iff od g).mp hd) (by simp [hmem])
    | some d =>
      simp only [emit_feature, hd]
      exact odSet_keys_of_some od g _ d hd
  · rw [if_neg hmem]
    have h := (alookup_eq_none_iff od g).mpr hmem
    simp only [emit_feature, h]
    rw [odSet_append_of_none od g _ h]
    simp

theorem emit_fold_keys (g : FullName) (w : Nat)
    (v : (Option Nat × List Bit) → Bool) :
    ∀ (ixs : List (Option Nat × List Bit)) (od : List (FullName × List (Nat × Nat))),
      ixs ≠ [] →
      ((ixs.foldl (fun features ib => emit_feature features g w ib.1 (v ib)) od).map
        Prod.fst) =
        if g ∈ od.map Prod.fst then od.map Prod.fst else od.map Prod.fst ++ [g] := by
  intro ixs
  induction ixs with
  | nil => intro od h; exact absurd rfl h
  | cons ib rest ih =>
    intro od _
    rw [List.foldl_cons]
    by_cases hrest : rest = []
    · subst hrest
      simp only [List.foldl_nil]
      exact emit_feature_keys od g w ib.1 (v ib)
    · rw [ih (emit_feature od g w ib.1 (v ib)) hrest, emit_feature_keys od g w ib.1 (v ib)]
      by_cases hmem : g ∈ od.map Prod.fst
      · simp [hmem]
      · simp [hmem]

theorem scan_segbits_keys (bitstream : List Nat) (offsetv : Nat)
    (mkName : PyStr → FullName) :
    ∀ (segbits : List (PyStr × List (Option Nat × List Bit)))
      (od : List (FullName × List (Nat × Nat))),
      (∀ fd ∈ segbits, fd.2 ≠ []) →
      (od.map Prod.fst ++ segbits.map (fun fd => mkName fd.1)).Nodup →
      (scan_segbits bitstream offsetv mkName od segbits).map Prod.fst =
        od.map Prod.fst ++ segbits.map (fun fd => mkName fd.1) := by
  intro segbits
  induction segbits with
  | nil => intro od _ _; simp [scan_segbits]
  | cons fd rest ih =>
    intro od hwf hnodup
    have hnodup' : ((od.map Prod.fst ++ [mkName fd.1]) ++
        rest.map (fun q => mkName q.1)).Nodup := by
      have heq : od.map Prod.fst ++ (fd :: rest).map (fun q => mkName q.1) =
          (od.map Prod.fst ++ [mkName fd.1]) ++ rest.map (fun q => mkName q.1) := by
        simp
      rw [heq] at hnodup
      exact hnodup
    have hmemparts := List.nodup_append.mp hnodup'
    have hinner := List.nodup_append.mp hmemparts.1
    have hfresh : mkName fd.1 ∉ od.map Prod.fst := by
      intro hcon
      exact hinner.2.2 hcon (by simp)
    unfold scan_segbits
    rw [List.foldl_cons]
    have hentry := emit_fold_keys (mkName fd.1) fd.2.length
      (fun ib => match_segbits bitstream ib.2 offsetv) fd.2 od (hwf fd (by simp))
    rw [if_neg hfresh] at hentry
    have hrec := ih (fd.2.foldl
        (fun features ib => emit_feature features (mkName fd.1) fd.2.length ib.1
          (match_segbits bitstream ib.2 offsetv)) od)
      (fun q hq => hwf q (by simp [hq]))
      (by
        rw [hentry]
        have : od.map Prod.fst ++ [mkName fd.1] ++ rest.map (fun q => mkName q.1) =
            od.map Prod.fst ++ (fd :: rest).map (fun q => mkName q.1) := by
          simp
        rw [this]
        exact hnodup)
    unfold scan_segbits at hrec
    rw [hrec, hentry]
    simp

theorem fold_scan_keys {β : Type} (bitstream : List Nat) (off : β → Nat)
    (mk : β → PyStr → FullName)
    (sb : β → List (PyStr × List (Option Nat × List Bit))) :
    ∀ (items : List β) (od : List (FullName × List (Nat × Nat))),
      (∀ b ∈ items, ∀ fd ∈ sb b, fd.2 ≠ []) →
      (od.map Prod.fst ++
        items.bind (fun b => (sb b).map (fun fd => mk b fd.1))).Nodup →
      ((items.foldl (fun features b =>
          scan_segbits bitstream (off b) (mk b) features (sb b)) od).map Prod.fst) =
        od.map Prod.fst ++ items.bind (fun b => (sb b).map (fun fd => mk b fd.1)) := by
  intro items
  induction items with
  | nil => intro od _ _; simp
  | cons b rest ih =>
    intro od hwf hnodup
    rw [List.foldl_cons]
    have hassoc : od.map Prod.fst ++
        ((b :: rest).bind (fun q => (sb q).map (fun fd => mk q fd.1))) =
        (od.map Prod.fst ++ (sb b).map (fun fd => mk b fd.1)) ++
          rest.bind (fun q => (sb q).map (fun fd => mk q fd.1)) := by
      simp [List.append_assoc]
    rw [hassoc] at hnodup
    have hhead := scan_segbits_keys bitstream (off b) (mk b) (sb b) od
      (hwf b (by simp))
      (hnodup.sublist (List.sublist_append_left _ _))
    have hrec := ih (scan_segbits bitstream (off b) (mk b) od (sb b))
      (fun q hq => hwf q (by simp [hq]))
      (by rw [hhead]; exact hnodup)
    rw [hrec, hhead, hassoc]

theorem convert_keys (l : List (FullName × List (Nat × Nat))) :
    (convert_to_set_features l).map (fun f => f.feature) = l.map Prod.fst := by
  unfold convert_to_set_features
  rw [List.map_map]
  apply List.map_congr_left
  intro fd _
  by_cases h : fd.2.length = 1
  · simp [h]
  · simp [h]

/-- The feature-name sequence in database order: every tile's segbits
features in tile-list order, then every routing box's features in
routing-list order. -/
def databaseOrderNames (database : Database) : List FullName :=
  database.tiles.bind
    (fun tile => (database.segbits (tile.type, none)).map
      (fun fd => ⟨true, tile.type, tile.x, tile.y, fd.1⟩)) ++
  database.routing.bind
    (fun sbox => (database.segbits (sbox.type, some sbox.variant)).map
      (fun fd => ⟨false, sbox.type, sbox.x, sbox.y, fd.1⟩))

/-- C7 amended: for every database (with the well-formedness the code
asserts: no feature has an empty index table, and distinct blocks/features
render distinct full names) and every bit array, the disassembled feature
list is ordered with all tile features first, in the database's tile-list
order, followed by all routing-box features in the database's
routing-list order; it is row-major sorted exactly when the database's
lists are (as the builder emits them). -/
theorem disassemble_order_database (database : Database) (bitstream : List Nat)
    (hwft : ∀ tile ∈ database.tiles,
      ∀ fd ∈ database.segbits (tile.type, none), fd.2 ≠ [])
    (hwfr : ∀ sbox ∈ database.routing,
      ∀ fd ∈ database.segbits (sbox.type, some sbox.variant), fd.2 ≠ [])
    (hnodup : (databaseOrderNames database).Nodup) :
    (disassemble_bitstream database bitstream).map (fun f => f.feature) =
      databaseOrderNames database := by
  have h0 : disassemble_bitstream database bitstream =
      convert_to_set_features
        (database.routing.foldl
          (fun features sbox => scan_segbits bitstream
            (sbox.offset + (database.regions.getD sbox.region ⟨0, 0⟩).offset)
            (fun feat => ⟨false, sbox.type, sbox.x, sbox.y, feat⟩)
            features (database.segbits (sbox.type, some sbox.variant)))
          (database.tiles.foldl
            (fun features tile => scan_segbits bitstream
              (tile.offset + (database.regions.getD tile.region ⟨0, 0⟩).offset)
              (fun feat => ⟨true, tile.type, tile.x, tile.y, feat⟩)
              features (database.segbits (tile.type, none)))
            [])) := rfl
  rw [h0, convert_keys]
  have hsplit := List.nodup_append.mp (by
    unfold databaseOrderNames at hnodup
    exact hnodup)
  have htiles := fold_scan_keys bitstream
    (fun t : Tile => t.offset + (database.regions.getD t.region ⟨0, 0⟩).offset)
    (fun t feat => (⟨true, t.type, t.x, t.y, feat⟩ : FullName))
    (fun t => database.segbits (t.type, none))
    database.tiles [] hwft (by simpa using hsplit.1)
  have hkeystiles : (database.tiles.foldl
      (fun features tile => scan_segbits bitstream
        (tile.offset + (database.regions.getD tile.region ⟨0, 0⟩).offset)
        (fun feat => ⟨true, tile.type, tile.x, tile.y, feat⟩)
        features (database.segbits (tile.type, none)))
      []).map Prod.fst =
      database.tiles.bind
        (fun tile => (database.segbits (tile.type, none)).map
          (fun fd => ⟨true, tile.type, tile.x, tile.y, fd.1⟩)) := by
    simpa using htiles
  have hrouting := fold_scan_keys bitstream
    (fun s : Sbox => s.offset + (database.regions.getD s.region ⟨0, 0⟩).offset)
    (fun s feat => (⟨false, s.type, s.x, s.y, feat⟩ : FullName))
    (fun s => database.segbits (s.type, some s.variant))
    database.routing
    (database.tiles.foldl
      (fun features tile => scan_segbits bitstream
        (tile.offset + (database.regions.getD tile.region ⟨0, 0⟩).offset)
        (fun feat => ⟨true, tile.type, tile.x, tile.y, feat⟩)
        features (database.segbits (tile.type, none)))
      [])
    hwfr
    (by
      rw [hkeystiles]
      unfold databaseOrderNames at hnodup
      simpa using hnodup)
  calc (database.routing.foldl
        (fun features sbox => scan_segbits bitstream
          (sbox.offset + (database.regions.getD sbox.region ⟨0, 0⟩).offset)
          (fun feat => ⟨false, sbox.type, sbox.x, sbox.y, feat⟩)
          features (database.segbits (sbox.type, some sbox.variant)))
        (database.tiles.foldl
          (fun features tile => scan_segbits bitstream
            (tile.offset + (database.regions.getD tile.region ⟨0, 0⟩).offset)
            (fun feat => ⟨true, tile.type, tile.x, tile.y, feat⟩)
            features (database.segbits (tile.type, none)))
          [])).map Prod.fst
      = (database.tiles.foldl
          (fun features tile => scan_segbits bitstream
            (tile.offset + (database.regions.getD tile.region ⟨0, 0⟩).offset)
            (fun feat => ⟨true, tile.type, tile.x, tile.y, feat⟩)
            features (database.segbits (tile.type, none)))
          []).map Prod.fst ++
        database.routing.bind
          (fun sbox => (database.segbits (sbox.type, some sbox.variant)).map
            (fun fd => ⟨false, sbox.type, sbox.x, sbox.y, fd.1⟩)) := by
        simpa using hrouting
    _ = databaseOrderNames database := by
        rw [hkeystiles]
        rfl

/-- A concrete database for the C7 witness: two tiles and one routing
box, each with one single-bit feature. -/
def disDbWit : Database :=
  ⟨4, [⟨0, 4⟩],
   [⟨['t'], 0, 0, 0, 0⟩, ⟨['u'], 1, 0, 0, 1⟩],
   [⟨['s'], 0, 0, 0, 0, 2⟩],
   fun key =>
     if key = (['t'], none) then [(['f'], [(none, [⟨0, true⟩])])]
     else if key = (['u'], none) then [(['g'], [(none, [⟨0, false⟩])])]
     else if key = (['s'], some 0) then [(['h'], [(none, [⟨1, true⟩])])]
     else []⟩

/-- Witness for the amended C7 on `disDbWit`. -/
theorem disassemble_order_database_witness :
    (databaseOrderNames disDbWit).Nodup ∧
    (disassemble_bitstream disDbWit [1, 0, 1, 0]).map (fun f => f.feature) =
      databaseOrderNames disDbWit :=
  ⟨by decide,
    disassemble_order_database disDbWit [1, 0, 1, 0] (by decide) (by decide) (by decide)⟩
